import Mathlib

/-!
Verification of the documentation-site crawler/extractor of this repository
(`src/ninja/python/`): the URL normalizer (`clean_url`), the content-extraction
cascade (`extract_content` of `ninjatrader_docs_scraper.py` and
`extract_documentation_content` of `ninjatrader_api_scraper.py`), the link
filters, and the crawl controllers (`scrape_site` of
`ninjatrader-selenium-scraper.py`, `scrape_recursive` of
`ninjatrader_docs_scraper.py`).

Strings are modelled as `List Char`.  The pieces of CPython's
`urllib.parse.urlparse`/`urlsplit` that `clean_url` consumes (scheme, netloc,
path, with params/query/fragment split off) are embedded faithfully below,
following the CPython 3.11 algorithm; the control-character stripping and the
IPv6 bracket validation of `urlsplit` are not modelled (no input considered
here contains such characters).
-/

set_option autoImplicit false

abbrev Str := List Char

/-! ### Generic takeWhile/dropWhile facts used throughout -/

theorem takeWhile_append_eval (q : Char → Bool) (l m : Str) :
    (l ++ m).takeWhile q =
      if l.all q then l ++ m.takeWhile q else l.takeWhile q := by
  induction l with
  | nil => simp
  | cons a l ih =>
    by_cases ha : q a
    · by_cases hl : l.all q <;>
        simp [List.takeWhile_cons, List.all_cons, ha, hl, ih]
    · simp [List.takeWhile_cons, List.all_cons, ha]

theorem dropWhile_append_eval (q : Char → Bool) (l m : Str) :
    (l ++ m).dropWhile q =
      if l.all q then m.dropWhile q else l.dropWhile q ++ m := by
  induction l with
  | nil => simp
  | cons a l ih =>
    by_cases ha : q a
    · by_cases hl : l.all q <;>
        simp [List.dropWhile_cons, List.all_cons, ha, hl, ih]
    · simp [List.dropWhile_cons, List.all_cons, ha]

theorem takeWhile_eq_self_of_all (q : Char → Bool) (l : Str) (h : l.all q) :
    l.takeWhile q = l := by
  induction l with
  | nil => simp
  | cons a l ih =>
    simp only [List.all_cons, Bool.and_eq_true] at h
    simp [List.takeWhile_cons, h.1, ih h.2]

theorem dropWhile_eq_nil_of_all (q : Char → Bool) (l : Str) (h : l.all q) :
    l.dropWhile q = [] := by
  induction l with
  | nil => simp
  | cons a l ih =>
    simp only [List.all_cons, Bool.and_eq_true] at h
    simp [List.dropWhile_cons, h.1, ih h.2]

theorem takeWhile_append_stop (q : Char → Bool) (l m : Str) (c : Char)
    (hc : q c = false) : (l ++ c :: m).takeWhile q = l.takeWhile q := by
  rw [takeWhile_append_eval]
  by_cases hl : l.all q
  · simp [hl, List.takeWhile_cons, hc, takeWhile_eq_self_of_all q l hl]
  · simp [hl]

theorem dropWhile_append_stop (q : Char → Bool) (l m : Str) (c : Char)
    (hc : q c = false) : (l ++ c :: m).dropWhile q = l.dropWhile q ++ c :: m := by
  rw [dropWhile_append_eval]
  by_cases hl : l.all q
  · simp [hl, List.dropWhile_cons, hc, dropWhile_eq_nil_of_all q l hl]
  · simp [hl]

theorem all_bne_of_not_mem {c : Char} {l : Str} (h : c ∉ l) :
    l.all (· != c) = true := by
  induction l with
  | nil => simp
  | cons a l ih =>
    simp only [List.mem_cons, not_or] at h
    simp only [List.all_cons, ih h.2, Bool.and_true, bne_iff_ne, Ne]
    exact fun hh => h.1 hh.symm

theorem not_mem_of_all_bne {c : Char} {l : Str} (h : l.all (· != c) = true) :
    c ∉ l := by
  intro hc
  have := List.all_eq_true.mp h c hc
  simp at this

/-! ### Characters of a URL scheme (CPython `scheme_chars`) and lowercasing -/

def scheme_chars (c : Char) : Bool :=
  c.isAlpha || c.isDigit || c == '+' || c == '-' || c == '.'

theorem ofNat_lower_facts (m : Nat) (h1 : 97 ≤ m) (h2 : m ≤ 122) :
    (Char.ofNat m).toNat = m ∧ (Char.ofNat m).isAlpha = true ∧
    scheme_chars (Char.ofNat m) = true ∧
    ¬ (65 ≤ (Char.ofNat m).toNat ∧ (Char.ofNat m).toNat ≤ 90) := by
  interval_cases m <;> exact ⟨by decide, by decide, by decide, by decide⟩

theorem toLower_eval (c : Char) :
    Char.toLower c =
      if 65 ≤ c.toNat ∧ c.toNat ≤ 90 then Char.ofNat (c.toNat + 32) else c := by
  rfl

theorem toLower_toLower (c : Char) :
    Char.toLower (Char.toLower c) = Char.toLower c := by
  by_cases h : 65 ≤ c.toNat ∧ c.toNat ≤ 90
  · have hm := ofNat_lower_facts (c.toNat + 32) (by omega) (by omega)
    rw [toLower_eval c, if_pos h, toLower_eval, if_neg hm.2.2.2]
  · rw [toLower_eval c, if_neg h, toLower_eval c, if_neg h]

theorem isAlpha_toLower {c : Char} (h : c.isAlpha = true) :
    (Char.toLower c).isAlpha = true := by
  by_cases hu : 65 ≤ c.toNat ∧ c.toNat ≤ 90
  · have hm := ofNat_lower_facts (c.toNat + 32) (by omega) (by omega)
    rw [toLower_eval c, if_pos hu]; exact hm.2.1
  · rwa [toLower_eval c, if_neg hu]

theorem scheme_chars_toLower {c : Char} (h : scheme_chars c = true) :
    scheme_chars (Char.toLower c) = true := by
  by_cases hu : 65 ≤ c.toNat ∧ c.toNat ≤ 90
  · have hm := ofNat_lower_facts (c.toNat + 32) (by omega) (by omega)
    rw [toLower_eval c, if_pos hu]; exact hm.2.2.1
  · rwa [toLower_eval c, if_neg hu]

theorem scheme_chars_ne_colon {c : Char} (h : scheme_chars c = true) : c ≠ ':' := by
  rintro rfl; simp [scheme_chars] at h

/-!
### The URL normalizer (`NinjaTraderDocsScraper.clean_url`)

`clean_url` (ninjatrader_docs_scraper.py lines 20-23):

    parsed = urlparse(url)
    return f"{parsed.scheme}://{parsed.netloc}{parsed.path}"

`urlparse` is CPython's `urllib.parse.urlparse`: `urlsplit` (scheme detection,
netloc split after `//`, fragment split at the first `#`, query split at the
first `?`) followed by splitting `;params` off the last path segment.
-/

structure UrlParts where
  scheme : Str
  netloc : Str
  path : Str
  params : Str
  query : Str
  fragment : Str
deriving Repr, DecidableEq

/-- Scheme detection of CPython `urlsplit`: `i = url.find(':')`; a scheme is
recognised when `i > 0`, `url[0]` is an ASCII letter and every char of
`url[:i]` is in `scheme_chars`; the scheme is lowercased. -/
def splitScheme (url : Str) : Str × Str :=
  let pre := url.takeWhile (· != ':')
  if 0 < pre.length ∧ pre.length < url.length ∧
      (pre.headD ' ').isAlpha ∧ pre.all scheme_chars then
    (pre.map Char.toLower, (url.dropWhile (· != ':')).drop 1)
  else
    ([], url)

/-- True for characters that do not terminate the netloc (`_splitnetloc`
scans up to the first of `/`, `?`, `#`). -/
def notNetlocEnd (c : Char) : Bool := !(c == '/') && !(c == '?') && !(c == '#')

/-- Netloc split of `urlsplit`: only when `url[:2] == '//'`. -/
def splitNetloc (rest : Str) : Str × Str :=
  if rest.take 2 = ['/', '/'] then
    ((rest.drop 2).takeWhile notNetlocEnd, (rest.drop 2).dropWhile notNetlocEnd)
  else ([], rest)

/-- `url.split(c, 1)`: split at the first occurrence of `c`; if `c` is absent
the second component is empty (matching the `if c in url` guards). -/
def splitFirst (c : Char) (s : Str) : Str × Str :=
  (s.takeWhile (· != c), (s.dropWhile (· != c)).drop 1)

/-- The part of `p` after its last `/` (`url[url.rfind('/'):]` without the
slash itself). -/
def lastSeg (p : Str) : Str := (p.reverse.takeWhile (· != '/')).reverse

/-- The part of `p` up to and including its last `/`. -/
def beforeLastSeg (p : Str) : Str := (p.reverse.dropWhile (· != '/')).reverse

/-- `_splitparams` of CPython `urlparse`: split `;params` off the last path
segment (off the whole path when it has no `/`). -/
def splitparams (p : Str) : Str × Str :=
  if ';' ∈ p then
    if '/' ∈ p then
      if ';' ∈ lastSeg p then
        (beforeLastSeg p ++ (lastSeg p).takeWhile (· != ';'),
         ((lastSeg p).dropWhile (· != ';')).drop 1)
      else (p, [])
    else (p.takeWhile (· != ';'), (p.dropWhile (· != ';')).drop 1)
  else (p, [])

def urlparse (url : Str) : UrlParts :=
  let s := splitScheme url
  let n := splitNetloc s.2
  let f := splitFirst '#' n.2
  let q := splitFirst '?' f.1
  let pp := splitparams q.1
  { scheme := s.1, netloc := n.1, path := pp.1,
    params := pp.2, query := q.2, fragment := f.2 }

/-- `NinjaTraderDocsScraper.clean_url`: "Remove fragments and normalize URL". -/
def clean_url (url : Str) : Str :=
  let p := urlparse url
  p.scheme ++ ':' :: '/' :: '/' :: (p.netloc ++ p.path)

example : clean_url "https://x/docs/a#s1".data = "https://x/docs/a".data := by decide
example : clean_url "https://x/docs/a?q=1".data = "https://x/docs/a".data := by decide
example : clean_url "HTTPS://x/a;p=1?q#f".data = "https://x/a".data := by decide
example : clean_url "foo".data = "://foo".data := by decide
example : clean_url "://foo".data = "://://foo".data := by decide

/-! ### Structural facts about `urlparse` outputs -/

theorem dropWhile_cons_of_mem {c : Char} {l : Str} (h : c ∈ l) :
    ∃ w, l.dropWhile (· != c) = c :: w := by
  induction l with
  | nil => cases h
  | cons a l ih =>
    by_cases ha : a = c
    · subst ha; exact ⟨l, by simp [List.dropWhile_cons]⟩
    · have : c ∈ l := by
        rcases List.mem_cons.mp h with h' | h'
        · exact absurd h'.symm ha
        · exact h'
      obtain ⟨w, hw⟩ := ih this
      exact ⟨w, by simp [List.dropWhile_cons, bne_iff_ne, Ne, ha, hw]⟩


theorem splitScheme_build (σ r : Str) (hne : σ ≠ [])
    (hall : σ.all scheme_chars = true) (hhead : (σ.headD ' ').isAlpha = true) :
    splitScheme (σ ++ ':' :: r) = (σ.map Char.toLower, r) := by
  have hcolon : σ.all (· != ':') = true := by
    refine List.all_eq_true.mpr fun c hc => ?_
    simpa [bne_iff_ne] using
      scheme_chars_ne_colon (List.all_eq_true.mp hall c hc)
  have htw : (σ ++ ':' :: r).takeWhile (· != ':') = σ := by
    rw [takeWhile_append_stop _ _ _ _ (by simp), takeWhile_eq_self_of_all _ _ hcolon]
  have hdw : (σ ++ ':' :: r).dropWhile (· != ':') = ':' :: r := by
    rw [dropWhile_append_stop _ _ _ _ (by simp), dropWhile_eq_nil_of_all _ _ hcolon]
    simp
  have hlen2 : σ.length < (σ ++ ':' :: r).length := by
    simp only [List.length_append, List.length_cons]; omega
  simp only [splitScheme, htw, hdw]
  rw [if_pos ⟨List.length_pos.mpr hne, hlen2, hhead, hall⟩]
  simp

theorem splitScheme_fst_spec (u : Str) :
    (splitScheme u).1 = [] ∨
    ((splitScheme u).1.all scheme_chars = true ∧
     ((splitScheme u).1.headD ' ').isAlpha = true ∧
     (splitScheme u).1.map Char.toLower = (splitScheme u).1) := by
  simp only [splitScheme]
  split
  · rename_i hcond
    obtain ⟨h1, h2, h3, h4⟩ := hcond
    right
    refine ⟨?_, ?_, ?_⟩
    · refine List.all_eq_true.mpr fun c hc => ?_
      obtain ⟨c', hc', rfl⟩ := List.mem_map.mp hc
      exact scheme_chars_toLower (List.all_eq_true.mp h4 c' hc')
    · obtain ⟨a, pre', ha⟩ := List.exists_cons_of_ne_nil
        (List.length_pos.mp h1)
      rw [ha]
      rw [ha] at h3
      simp only [List.map_cons, List.headD_cons] at h3 ⊢
      exact isAlpha_toLower h3
    · rw [List.map_map]
      exact List.map_congr_left fun c _ => toLower_toLower c
  · left; rfl

theorem splitNetloc_fst_all (r : Str) :
    (splitNetloc r).1.all notNetlocEnd = true := by
  unfold splitNetloc
  split
  · exact List.all_eq_true.mpr fun c hc => List.mem_takeWhile_imp hc
  · rfl

theorem beforeLastSeg_append_lastSeg (p : Str) :
    beforeLastSeg p ++ lastSeg p = p := by
  rw [beforeLastSeg, lastSeg, ← List.reverse_append,
    List.takeWhile_append_dropWhile, List.reverse_reverse]

theorem lastSeg_subset {c : Char} {p : Str} (h : c ∈ lastSeg p) : c ∈ p := by
  rw [lastSeg, List.mem_reverse] at h
  have := (List.takeWhile_sublist _).subset h
  rwa [List.mem_reverse] at this

theorem lastSeg_no_slash {c : Char} {p : Str} (h : c ∈ lastSeg p) : c ≠ '/' := by
  rw [lastSeg, List.mem_reverse] at h
  simpa [bne_iff_ne] using List.mem_takeWhile_imp h

theorem splitparams_fst_subset {c : Char} {p : Str}
    (h : c ∈ (splitparams p).1) : c ∈ p := by
  rw [splitparams] at h
  split at h
  · split at h
    · split at h
      · simp only at h
        rcases List.mem_append.mp h with h' | h'
        · have hm : c ∈ beforeLastSeg p ++ lastSeg p :=
            List.mem_append.mpr (Or.inl h')
          rwa [beforeLastSeg_append_lastSeg] at hm
        · exact lastSeg_subset ((List.takeWhile_sublist _).subset h')
      · exact h
    · exact (List.takeWhile_sublist _).subset h
  · exact h

theorem lastSeg_append_of_mem {a b : Str} (h : '/' ∈ b) :
    lastSeg (a ++ b) = lastSeg b := by
  have hnall : b.reverse.all (· != '/') = false := by
    cases hb : b.reverse.all (· != '/') with
    | false => rfl
    | true => exact absurd (List.mem_reverse.mpr h) (not_mem_of_all_bne hb)
  rw [lastSeg, lastSeg, List.reverse_append, takeWhile_append_eval,
    if_neg (by simp [hnall])]

theorem splitparams_id {p : Str}
    (h : ';' ∈ p → '/' ∈ p ∧ ';' ∉ lastSeg p) : splitparams p = (p, []) := by
  rw [splitparams]
  by_cases hs : ';' ∈ p
  · obtain ⟨h1, h2⟩ := h hs
    rw [if_pos hs, if_pos h1, if_neg h2]
  · rw [if_neg hs]

theorem splitparams_fst_paramFree (p : Str) :
    ';' ∈ (splitparams p).1 → '/' ∈ (splitparams p).1 ∧
      ';' ∉ lastSeg (splitparams p).1 := by
  simp only [splitparams]
  split
  · rename_i hsemi
    split
    · rename_i hslash
      split
      · rename_i hseg
        intro _
        obtain ⟨w, hw⟩ := dropWhile_cons_of_mem (List.mem_reverse.mpr hslash)
        have hbls : beforeLastSeg p = w.reverse ++ ['/'] := by
          rw [beforeLastSeg, hw]; simp
        constructor
        · rw [hbls]
          exact List.mem_append.mpr (Or.inl (List.mem_append.mpr (Or.inr (by simp))))
        · have hA : ((lastSeg p).takeWhile (· != ';')).reverse.all (· != '/') = true := by
            refine List.all_eq_true.mpr fun c hc => ?_
            rw [List.mem_reverse] at hc
            have := lastSeg_no_slash ((List.takeWhile_sublist _).subset hc)
            simpa [bne_iff_ne]
          intro hmem
          rw [lastSeg, hbls, List.reverse_append, List.reverse_append] at hmem
          simp only [List.reverse_cons, List.reverse_nil, List.nil_append,
            List.reverse_reverse, List.append_assoc, List.cons_append,
            List.nil_append] at hmem
          rw [takeWhile_append_stop _ _ _ '/' (by simp),
            takeWhile_eq_self_of_all _ _ hA, List.reverse_reverse] at hmem
          simpa [bne_iff_ne] using List.mem_takeWhile_imp hmem
      · rename_i hseg
        intro _
        exact ⟨hslash, hseg⟩
    · intro hmem
      have := List.mem_takeWhile_imp hmem
      simp [bne_iff_ne] at this
  · rename_i hsemi
    intro hmem
    exact absurd hmem hsemi

theorem splitFirst_fst_not_mem (c : Char) (s : Str) : c ∉ (splitFirst c s).1 := by
  intro h
  have := List.mem_takeWhile_imp h
  simp at this

theorem splitFirst_fst_subset {x c : Char} {s : Str}
    (h : x ∈ (splitFirst c s).1) : x ∈ s :=
  (List.takeWhile_sublist _).subset h

theorem splitFirst_id (c : Char) (s : Str) (h : c ∉ s) : splitFirst c s = (s, []) := by
  rw [splitFirst, takeWhile_eq_self_of_all _ _ (all_bne_of_not_mem h),
    dropWhile_eq_nil_of_all _ _ (all_bne_of_not_mem h)]
  rfl

theorem urlparse_netloc_all (u : Str) :
    (urlparse u).netloc.all notNetlocEnd = true :=
  splitNetloc_fst_all _

theorem urlparse_path_no_hash (u : Str) : '#' ∉ (urlparse u).path := fun h =>
  splitFirst_fst_not_mem '#' _ (splitFirst_fst_subset (splitparams_fst_subset h))

theorem urlparse_path_no_query (u : Str) : '?' ∉ (urlparse u).path := fun h =>
  splitFirst_fst_not_mem '?' _ (splitparams_fst_subset h)

theorem urlparse_path_paramFree (u : Str) :
    ';' ∈ (urlparse u).path → '/' ∈ (urlparse u).path ∧
      ';' ∉ lastSeg (urlparse u).path :=
  splitparams_fst_paramFree _

/-- Re-parsing `scheme://netloc+path` as produced by `clean_url`: provided the
scheme is a non-empty lowercase scheme and the tail contains no `#`/`?` and no
`;` in its last path segment, `urlparse` recovers the same overall string. -/
theorem urlparse_rebuild (σ X : Str) (hne : σ ≠ [])
    (hall : σ.all scheme_chars = true) (hhead : (σ.headD ' ').isAlpha = true)
    (hlow : σ.map Char.toLower = σ)
    (hX1 : '#' ∉ X) (hX2 : '?' ∉ X)
    (hXp : splitparams (X.dropWhile notNetlocEnd) = (X.dropWhile notNetlocEnd, [])) :
    urlparse (σ ++ ':' :: '/' :: '/' :: X) =
      { scheme := σ, netloc := X.takeWhile notNetlocEnd,
        path := X.dropWhile notNetlocEnd, params := [],
        query := [], fragment := [] } := by
  have hs := splitScheme_build σ ('/' :: '/' :: X) hne hall hhead
  rw [hlow] at hs
  have hn : splitNetloc ('/' :: '/' :: X) =
      (X.takeWhile notNetlocEnd, X.dropWhile notNetlocEnd) := rfl
  have hd1 : '#' ∉ X.dropWhile notNetlocEnd := fun hm =>
    hX1 ((List.dropWhile_sublist _).subset hm)
  have hd2 : '?' ∉ X.dropWhile notNetlocEnd := fun hm =>
    hX2 ((List.dropWhile_sublist _).subset hm)
  simp only [urlparse, hs, hn, splitFirst_id _ _ hd1, splitFirst_id _ _ hd2, hXp]

/-- `clean_url`, unfolded. -/
theorem clean_url_eval (u : Str) :
    clean_url u = (urlparse u).scheme ++ ':' :: '/' :: '/' ::
      ((urlparse u).netloc ++ (urlparse u).path) := rfl

/-- Idempotence of `clean_url` on inputs that parse with a scheme. -/
theorem clean_url_idem (u : Str) (h : (urlparse u).scheme ≠ []) :
    clean_url (clean_url u) = clean_url u := by
  rcases splitScheme_fst_spec u with hnil | ⟨hall, hhead, hlow⟩
  · exact absurd hnil h
  have hX1 : '#' ∉ (urlparse u).netloc ++ (urlparse u).path := by
    intro hm
    rcases List.mem_append.mp hm with hm | hm
    · have := List.all_eq_true.mp (urlparse_netloc_all u) _ hm
      simp [notNetlocEnd] at this
    · exact urlparse_path_no_hash u hm
  have hX2 : '?' ∉ (urlparse u).netloc ++ (urlparse u).path := by
    intro hm
    rcases List.mem_append.mp hm with hm | hm
    · have := List.all_eq_true.mp (urlparse_netloc_all u) _ hm
      simp [notNetlocEnd] at this
    · exact urlparse_path_no_query u hm
  have hsplit : ((urlparse u).netloc ++ (urlparse u).path).takeWhile notNetlocEnd ++
      ((urlparse u).netloc ++ (urlparse u).path).dropWhile notNetlocEnd =
      (urlparse u).netloc ++ (urlparse u).path :=
    List.takeWhile_append_dropWhile notNetlocEnd _
  have hXp : splitparams (((urlparse u).netloc ++ (urlparse u).path).dropWhile notNetlocEnd) =
      (((urlparse u).netloc ++ (urlparse u).path).dropWhile notNetlocEnd, []) := by
    by_cases hsl : '/' ∈ (urlparse u).path
    · have hslX : '/' ∈ (urlparse u).netloc ++ (urlparse u).path :=
        List.mem_append.mpr (Or.inr hsl)
      have hslp : '/' ∈ ((urlparse u).netloc ++ (urlparse u).path).dropWhile notNetlocEnd := by
        rw [← hsplit] at hslX
        rcases List.mem_append.mp hslX with hm | hm
        · have := List.mem_takeWhile_imp hm
          simp [notNetlocEnd] at this
        · exact hm
      apply splitparams_id
      intro _
      refine ⟨hslp, ?_⟩
      have h1 := lastSeg_append_of_mem
        (a := ((urlparse u).netloc ++ (urlparse u).path).takeWhile notNetlocEnd) hslp
      rw [hsplit] at h1
      have h2 := lastSeg_append_of_mem (a := (urlparse u).netloc) hsl
      rw [← h1, h2]
      by_cases hsp : ';' ∈ (urlparse u).path
      · exact (urlparse_path_paramFree u hsp).2
      · exact fun hm => hsp (lastSeg_subset hm)
    · have hallX : ((urlparse u).netloc ++ (urlparse u).path).all notNetlocEnd = true := by
        rw [List.all_append, Bool.and_eq_true]
        refine ⟨urlparse_netloc_all u, List.all_eq_true.mpr fun c hc => ?_⟩
        have h1 : c ≠ '/' := fun hh => hsl (hh ▸ hc)
        have h2 : c ≠ '?' := fun hh => urlparse_path_no_query u (hh ▸ hc)
        have h3 : c ≠ '#' := fun hh => urlparse_path_no_hash u (hh ▸ hc)
        simp [notNetlocEnd, h1, h2, h3]
      rw [dropWhile_eq_nil_of_all _ _ hallX]
      rfl
  have hre := urlparse_rebuild (urlparse u).scheme
    ((urlparse u).netloc ++ (urlparse u).path) h hall hhead hlow hX1 hX2 hXp
  rw [clean_url_eval u, clean_url_eval, hre]
  simp only [hsplit]

/-! ### Appending a fragment or query suffix -/

theorem all_bne_eq_false_of_mem {c : Char} {l : Str} (h : c ∈ l) :
    l.all (· != c) = false := by
  cases hb : l.all (· != c) with
  | false => rfl
  | true => exact absurd h (not_mem_of_all_bne hb)

theorem length_takeWhile_lt_of_mem {c : Char} {u : Str} (h : c ∈ u) :
    (u.takeWhile (· != c)).length < u.length := by
  have hp : u.takeWhile (· != c) <+: u := List.takeWhile_prefix _
  rcases Nat.lt_or_ge (u.takeWhile (· != c)).length u.length with hlt | hge
  · exact hlt
  · exfalso
    have heq := hp.eq_of_length_le hge
    rw [← heq] at h
    have := List.mem_takeWhile_imp h
    simp at this

theorem splitScheme_snd_subset {x : Char} {u : Str}
    (h : x ∈ (splitScheme u).2) : x ∈ u := by
  rw [splitScheme] at h
  split at h
  · exact (List.dropWhile_sublist _).subset ((List.drop_sublist _ _).subset h)
  · exact h

theorem splitNetloc_snd_subset {x : Char} {r : Str}
    (h : x ∈ (splitNetloc r).2) : x ∈ r := by
  rw [splitNetloc] at h
  split at h
  · exact (List.drop_sublist _ _).subset ((List.dropWhile_sublist _).subset h)
  · exact h

theorem splitScheme_append (u v' : Str) (c : Char)
    (hc1 : scheme_chars c = false) (hc2 : c ≠ ':') :
    splitScheme (u ++ c :: v') =
      ((splitScheme u).1, (splitScheme u).2 ++ c :: v') := by
  by_cases hcol : ':' ∈ u
  · have hnall : u.all (· != ':') = false := all_bne_eq_false_of_mem hcol
    have htw : (u ++ c :: v').takeWhile (· != ':') = u.takeWhile (· != ':') := by
      rw [takeWhile_append_eval, if_neg (by simp [hnall])]
    have hdw : (u ++ c :: v').dropWhile (· != ':') =
        u.dropWhile (· != ':') ++ c :: v' := by
      rw [dropWhile_append_eval, if_neg (by simp [hnall])]
    obtain ⟨w, hw⟩ := dropWhile_cons_of_mem hcol
    have hlt := length_takeWhile_lt_of_mem hcol
    have hlt2 : (u.takeWhile (· != ':')).length < (u ++ c :: v').length := by
      have : u.length ≤ (u ++ c :: v').length := by
        simp only [List.length_append]; omega
      omega
    simp only [splitScheme, htw, hdw, hw]
    by_cases hcond : 0 < (u.takeWhile (· != ':')).length ∧
        ((u.takeWhile (· != ':')).headD ' ').isAlpha = true ∧
        (u.takeWhile (· != ':')).all scheme_chars = true
    · rw [if_pos ⟨hcond.1, hlt2, hcond.2.1, hcond.2.2⟩,
        if_pos ⟨hcond.1, hlt, hcond.2.1, hcond.2.2⟩]
      simp
    · rw [if_neg (fun hfull => hcond ⟨hfull.1, hfull.2.2.1, hfull.2.2.2⟩),
        if_neg (fun hfull => hcond ⟨hfull.1, hfull.2.2.1, hfull.2.2.2⟩)]
  · have hall : u.all (· != ':') = true := all_bne_of_not_mem hcol
    have hu0 : splitScheme u = ([], u) := by
      have htw : u.takeWhile (· != ':') = u := takeWhile_eq_self_of_all _ _ hall
      simp only [splitScheme, htw]
      rw [if_neg]
      rintro ⟨-, h2, -, -⟩
      omega
    rw [hu0]
    have htw : (u ++ c :: v').takeWhile (· != ':') =
        u ++ c :: (v'.takeWhile (· != ':')) := by
      rw [takeWhile_append_eval, if_pos hall, List.takeWhile_cons,
        if_pos (by simp [bne_iff_ne, hc2])]
    simp only [splitScheme, htw]
    rw [if_neg]
    rintro ⟨-, -, -, h4⟩
    rw [List.all_append] at h4
    simp only [Bool.and_eq_true, List.all_cons] at h4
    rw [hc1] at h4
    simp at h4

theorem splitNetloc_append (r v' : Str) (c : Char)
    (hc : notNetlocEnd c = false) (hcs : c ≠ '/') :
    splitNetloc (r ++ c :: v') = ((splitNetloc r).1, (splitNetloc r).2 ++ c :: v') := by
  match r with
  | [] =>
    have h1 : splitNetloc (c :: v') = ([], c :: v') := by
      rw [splitNetloc, if_neg (show ¬((c :: v').take 2 = ['/', '/']) from fun hh => hcs
        ((List.cons_eq_cons.mp (show c :: v'.take 1 = ['/', '/'] from hh)).1))]
    have h2 : splitNetloc ([] : Str) = ([], []) := rfl
    rw [List.nil_append, h1, h2]
    rfl
  | [a] =>
    have h1 : splitNetloc (a :: c :: v') = ([], a :: c :: v') := by
      rw [splitNetloc, if_neg (show ¬((a :: c :: v').take 2 = ['/', '/']) from fun hh => hcs
        ((List.cons_eq_cons.mp
          (List.cons_eq_cons.mp (show a :: c :: ([] : Str) = ['/', '/'] from hh)).2).1))]
    have h2 : splitNetloc [a] = ([], [a]) := by
      rw [splitNetloc, if_neg (fun hh => by
        have := congrArg List.length hh
        simp at this)]
    show splitNetloc (a :: c :: v') = ((splitNetloc [a]).1, (splitNetloc [a]).2 ++ c :: v')
    rw [h1, h2]
    rfl
  | a :: b :: t =>
    have htake : ((a :: b :: t) ++ c :: v').take 2 = (a :: b :: t).take 2 := rfl
    have hdrop : ((a :: b :: t) ++ c :: v').drop 2 = t ++ c :: v' := rfl
    simp only [splitNetloc, htake, hdrop]
    split
    · show ((t ++ c :: v').takeWhile notNetlocEnd, (t ++ c :: v').dropWhile notNetlocEnd) =
        (((a :: b :: t).drop 2).takeWhile notNetlocEnd,
         ((a :: b :: t).drop 2).dropWhile notNetlocEnd ++ c :: v')
      show ((t ++ c :: v').takeWhile notNetlocEnd, (t ++ c :: v').dropWhile notNetlocEnd) =
        (t.takeWhile notNetlocEnd, t.dropWhile notNetlocEnd ++ c :: v')
      rw [takeWhile_append_stop _ _ _ _ hc, dropWhile_append_stop _ _ _ _ hc]
    · rfl

theorem splitFirst_append_hit (c : Char) (l m : Str) (h : c ∉ l) :
    splitFirst c (l ++ c :: m) = (l, m) := by
  rw [splitFirst, takeWhile_append_stop _ _ _ _ (by simp),
    takeWhile_eq_self_of_all _ _ (all_bne_of_not_mem h),
    dropWhile_append_stop _ _ _ _ (by simp),
    dropWhile_eq_nil_of_all _ _ (all_bne_of_not_mem h)]
  simp

theorem urlparse_append_hash (u f : Str) (hu : '#' ∉ u) :
    (urlparse (u ++ '#' :: f)).scheme = (urlparse u).scheme ∧
    (urlparse (u ++ '#' :: f)).netloc = (urlparse u).netloc ∧
    (urlparse (u ++ '#' :: f)).path = (urlparse u).path := by
  have hss := splitScheme_append u f '#' (by decide) (by decide)
  have hr : '#' ∉ (splitScheme u).2 := fun hm => hu (splitScheme_snd_subset hm)
  have hnn := splitNetloc_append ((splitScheme u).2) f '#' (by decide) (by decide)
  have hr2 : '#' ∉ (splitNetloc (splitScheme u).2).2 := fun hm =>
    hr (splitNetloc_snd_subset hm)
  have hff := splitFirst_append_hit '#' _ f hr2
  have hf0 := splitFirst_id '#' _ hr2
  refine ⟨?_, ?_, ?_⟩ <;>
    simp only [urlparse, hss, hnn, hff, hf0]

theorem urlparse_append_query (u q : Str) (hu1 : '#' ∉ u) (hu2 : '?' ∉ u) :
    (urlparse (u ++ '?' :: q)).scheme = (urlparse u).scheme ∧
    (urlparse (u ++ '?' :: q)).netloc = (urlparse u).netloc ∧
    (urlparse (u ++ '?' :: q)).path = (urlparse u).path := by
  have hss := splitScheme_append u q '?' (by decide) (by decide)
  have hr1 : '#' ∉ (splitScheme u).2 := fun hm => hu1 (splitScheme_snd_subset hm)
  have hr2 : '?' ∉ (splitScheme u).2 := fun hm => hu2 (splitScheme_snd_subset hm)
  have hnn := splitNetloc_append ((splitScheme u).2) q '?' (by decide) (by decide)
  have hn1 : '#' ∉ (splitNetloc (splitScheme u).2).2 := fun hm =>
    hr1 (splitNetloc_snd_subset hm)
  have hn2 : '?' ∉ (splitNetloc (splitScheme u).2).2 := fun hm =>
    hr2 (splitNetloc_snd_subset hm)
  have htw : ((splitNetloc (splitScheme u).2).2 ++ '?' :: q).takeWhile (· != '#') =
      (splitNetloc (splitScheme u).2).2 ++ '?' :: (q.takeWhile (· != '#')) := by
    rw [takeWhile_append_eval, if_pos (all_bne_of_not_mem hn1), List.takeWhile_cons,
      if_pos (by decide)]
  have hfrag : (splitFirst '#' ((splitNetloc (splitScheme u).2).2 ++ '?' :: q)).1 =
      (splitNetloc (splitScheme u).2).2 ++ '?' :: (q.takeWhile (· != '#')) := htw
  have hf0 := splitFirst_id '#' _ hn1
  have hq1 := splitFirst_append_hit '?' _ (q.takeWhile (· != '#')) hn2
  have hq0 := splitFirst_id '?' _ hn2
  refine ⟨?_, ?_, ?_⟩ <;>
    simp only [urlparse, hss, hnn, hfrag, hf0, hq1, hq0]

/-! ### Claims C2 and C9: behaviour of the URL normalizer -/

/-- C2, counterexample: the claim asserts that two URLs differing only by
query string normalize to *distinct* CrawlURLs (the query string preserved).
In fact `clean_url` rebuilds the URL from scheme, netloc and path only, so the
query string is dropped: both query variants collapse to the same CrawlURL. -/
theorem c2_counterexample :
    clean_url "https://x/docs/a?q=1".data = clean_url "https://x/docs/a?q=2".data ∧
    clean_url "https://x/docs/a?q=1".data = "https://x/docs/a".data := by
  constructor
  · decide
  · decide

/-- C2, amended: `clean_url` strips the fragment *and* the query (and path
params): appending `#f` to a fragment-free URL does not change the normalized
result, and appending `?q` to a fragment- and query-free URL does not change
it either — two URLs differing only by fragment or only by query normalize to
the same CrawlURL. -/
theorem clean_url_strips_fragment_and_query (u f q : Str) (hu : '#' ∉ u) :
    clean_url (u ++ '#' :: f) = clean_url u ∧
    ('?' ∉ u → clean_url (u ++ '?' :: q) = clean_url u) := by
  constructor
  · obtain ⟨h1, h2, h3⟩ := urlparse_append_hash u f hu
    rw [clean_url_eval, clean_url_eval, h1, h2, h3]
  · intro hq
    obtain ⟨h1, h2, h3⟩ := urlparse_append_query u q hu hq
    rw [clean_url_eval, clean_url_eval, h1, h2, h3]

/-- Witness for C2 (amended): instantiated on the spec's own example page. -/
theorem clean_url_strips_fragment_and_query_witness :
    ('#' ∉ "https://x/docs/a".data) ∧
    clean_url ("https://x/docs/a".data ++ '#' :: "section1".data) =
      clean_url "https://x/docs/a".data ∧
    clean_url ("https://x/docs/a".data ++ '?' :: "q=1".data) =
      clean_url "https://x/docs/a".data :=
  ⟨by decide,
   (clean_url_strips_fragment_and_query "https://x/docs/a".data
      "section1".data "q=1".data (by decide)).1,
   (clean_url_strips_fragment_and_query "https://x/docs/a".data
      "section1".data "q=1".data (by decide)).2 (by decide)⟩

/-- C9, counterexample: normalization is *not* idempotent on every URL.  On a
scheme-less input (a relative reference) `clean_url` prepends `"://"`, and a
second application prepends it again: `clean_url "foo" = "://foo"` but
`clean_url "://foo" = "://://foo"`. -/
theorem c9_counterexample :
    clean_url (clean_url "foo".data) ≠ clean_url "foo".data := by decide

/-- C9, amended: `clean_url` is idempotent on every URL whose parse carries a
non-empty scheme — in particular on every absolute `http(s)` URL, which is the
only kind the crawler feeds it after `urljoin`. -/
theorem clean_url_idempotent_on_scheme_urls (u : Str)
    (h : (urlparse u).scheme ≠ []) :
    clean_url (clean_url u) = clean_url u :=
  clean_url_idem u h

/-- Witness for C9 (amended): instantiated on the crawler's seed URL. -/
theorem clean_url_idempotent_on_scheme_urls_witness :
    (urlparse "https://developer.ninjatrader.com/docs/desktop".data).scheme ≠ [] ∧
    clean_url (clean_url "https://developer.ninjatrader.com/docs/desktop".data) =
      clean_url "https://developer.ninjatrader.com/docs/desktop".data :=
  ⟨by decide,
   clean_url_idempotent_on_scheme_urls
     "https://developer.ninjatrader.com/docs/desktop".data (by decide)⟩

/-!
### HTML model for the content extractors

An element tree as produced by BeautifulSoup's parse: element nodes carry a
tag name, a class list and optional `id`/`role` attributes (the only
attributes the scrapers' selectors consult); text leaves carry raw strings.
-/

inductive HNode where
  | text (s : Str)
  | elem (tag : Str) (classes : List Str) (idAttr : Option Str)
      (roleAttr : Option Str) (children : List HNode)
deriving Repr

/-- Python `str.strip()`: remove whitespace from both ends. -/
def pyStrip (s : Str) : Str :=
  ((s.dropWhile Char.isWhitespace).reverse.dropWhile Char.isWhitespace).reverse

mutual

/-- BeautifulSoup `_all_strings(strip=True)`: the stripped descendant text
strings in document order, skipping those that strip to empty. -/
def strippedTexts : HNode → List Str
  | .text s => if pyStrip s = [] then [] else [pyStrip s]
  | .elem _ _ _ _ cs => strippedTextsList cs

/-- `strippedTexts` over a child list. -/
def strippedTextsList : List HNode → List Str
  | [] => []
  | n :: ns => strippedTexts n ++ strippedTextsList ns

end

/-- `get_text(separator='\n', strip=True)`. -/
def get_text_sep (n : HNode) : Str := List.intercalate ['\n'] (strippedTexts n)

/-- `get_text(strip=True)` (default empty separator). -/
def get_text_nosep (n : HNode) : Str := (strippedTexts n).flatten

/-- The CSS selector shapes used by the scrapers: a bare tag name, a class
(`.c`), an id (`#i`), or an attribute selector on `role`. -/
inductive Selector where
  | tagSel (t : Str)
  | classSel (c : Str)
  | idSel (i : Str)
  | roleSel (r : Str)
deriving Repr, DecidableEq

def selMatches (s : Selector) : HNode → Bool
  | .text _ => false
  | .elem tag classes idAttr roleAttr _ =>
    match s with
    | .tagSel t => tag == t
    | .classSel c => classes.contains c
    | .idSel i => idAttr == some i
    | .roleSel r => roleAttr == some r

mutual

/-- `select_one`/`find`: the first matching element in document order
(pre-order). -/
def selectOne (s : Selector) : HNode → Option HNode
  | .text _ => none
  | .elem tag cls idA role cs =>
    if selMatches s (.elem tag cls idA role cs) then some (.elem tag cls idA role cs)
    else selectOneList s cs

/-- `selectOne` over a child list. -/
def selectOneList (s : Selector) : List HNode → Option HNode
  | [] => none
  | n :: ns =>
    match selectOne s n with
    | some e => some e
    | none => selectOneList s ns

end

mutual

/-- `content.select(sels)` + `.decompose()`: drop every descendant element
matching one of the selectors (the node itself is kept — `select` only
searches descendants). -/
def removeSelAll (sels : List Selector) : HNode → HNode
  | .text s => .text s
  | .elem tag cls idA role cs => .elem tag cls idA role (removeSelAllList sels cs)

/-- `removeSelAll` over a child list. -/
def removeSelAllList (sels : List Selector) : List HNode → List HNode
  | [] => []
  | n :: ns =>
    (if sels.any (fun s => selMatches s n) then [] else [removeSelAll sels n]) ++
      removeSelAllList sels ns

end

mutual

/-- `find_all(tags)`: every element whose tag is in `ts`, in document order
(pre-order, including nested matches). -/
def findAllTags (ts : List Str) : HNode → List HNode
  | .text _ => []
  | .elem tag cls idA role cs =>
    (if ts.contains tag then [HNode.elem tag cls idA role cs] else []) ++
      findAllTagsList ts cs

/-- `findAllTags` over a child list. -/
def findAllTagsList (ts : List Str) : List HNode → List HNode
  | [] => []
  | n :: ns => findAllTags ts n ++ findAllTagsList ts ns

end

/-- Page title: `soup.find('title').get_text(strip=True)`, defaulting to
`"Untitled"`. -/
def titleText (soup : HNode) : Str :=
  match selectOne (.tagSel "title".data) soup with
  | some t => get_text_nosep t
  | none => "Untitled".data

/-!
### `NinjaTraderDocsScraper.extract_content` (ninjatrader_docs_scraper.py 38-108)

The four-stage cascade: (1) first matching semantic selector, (2) largest
text `div`, (3) body minus navigation, (4) full body.  The chosen block then
has boilerplate decomposed, its text extracted with `'\n'` separators, and
the page is kept only when `len(text_content) > 100`.  The markdown
conversion (`html2text`) and the surrounding metadata string are not
modelled: the result is `some (title, text_content)` exactly when the Python
function returns a non-empty string, and `none` when it returns `""`.
-/

def content_selectors : List Selector :=
  [.tagSel "main".data, .tagSel "article".data, .classSel "content".data,
   .classSel "main".data, .classSel "documentation".data,
   .classSel "doc-content".data, .idSel "content".data, .roleSel "main".data]

/-- Strategy 1: probe `content_selectors` in order, keep the first match. -/
def firstSelectorMatch (soup : HNode) : Option HNode :=
  content_selectors.foldl
    (fun acc s =>
      match acc with
      | some e => some e
      | none => selectOne s soup) none

/-- Strategy 2 (`find_largest_text_block`): the `div` with the greatest
`get_text(strip=True)` length; `None` when every div has length 0. -/
def find_largest_text_block (soup : HNode) : Option HNode :=
  ((findAllTags ["div".data] soup).foldl
    (fun acc d =>
      if (get_text_nosep d).length > acc.1 then ((get_text_nosep d).length, some d)
      else acc)
    (0, (none : Option HNode))).2

def nav_selectors : List Selector :=
  [.tagSel "nav".data, .classSel "nav".data, .classSel "navigation".data,
   .tagSel "header".data, .tagSel "footer".data]

/-- Strategy 3 (`get_body_without_nav`): the body with navigation elements
decomposed. -/
def get_body_without_nav (soup : HNode) : Option HNode :=
  match selectOne (.tagSel "body".data) soup with
  | some body => some (removeSelAll nav_selectors body)
  | none => none

def unwanted_selectors : List Selector :=
  [.tagSel "nav".data, .tagSel "header".data, .tagSel "footer".data,
   .classSel "nav".data, .classSel "navigation".data, .classSel "sidebar".data,
   .tagSel "script".data, .tagSel "style".data, .classSel "header".data,
   .classSel "footer".data]

/-- The shared tail of `extract_content`: decompose unwanted elements in the
chosen block, extract its text, and keep the page only when the text is
longer than 100 characters. -/
def processChosen (soup chosen : HNode) : Option (Str × Str) :=
  let text_content := get_text_sep (removeSelAll unwanted_selectors chosen)
  if 100 < text_content.length then some (titleText soup, text_content) else none

def extract_content (soup : HNode) : Option (Str × Str) :=
  match firstSelectorMatch soup with
  | some content => processChosen soup content
  | none =>
    match find_largest_text_block soup with
    | some content => processChosen soup content
    | none =>
      match get_body_without_nav soup with
      | some content => processChosen soup content
      | none =>
        match selectOne (.tagSel "body".data) soup with
        | some content => processChosen soup content
        | none => none

/-- The page of the C1 counterexample: a `<main>` element with 2 characters
of text next to a `<div>` with 150 characters. -/
def c1_page : HNode :=
  .elem "html".data [] none none
    [.elem "head".data [] none none
      [.elem "title".data [] none none [.text "T".data]],
     .elem "body".data [] none none
      [.elem "main".data [] none none [.text "hi".data],
       .elem "div".data [] none none [.text (List.replicate 150 'a')]]]

/-- The `<main>` element of `c1_page`. -/
def c1_main : HNode := .elem "main".data [] none none [.text "hi".data]

set_option maxRecDepth 8000 in
/-- C1, counterexample: the claim says each cascade stage is attempted only
if the previous produced no *qualifying* (≥ threshold) block, so that a
below-threshold semantic match still falls through to the largest-text-block
pass.  In fact strategy 1 keeps the *first selector match regardless of its
text length*: on `c1_page` the `main` element (2 chars) is chosen, the
150-char `div` that the largest-text-block pass would find is never
consulted, and the extractor returns nothing. -/
theorem c1_counterexample :
    extract_content c1_page = none ∧
    firstSelectorMatch c1_page = some c1_main ∧
    ∃ d, find_largest_text_block c1_page = some d ∧
      100 < (get_text_sep (removeSelAll unwanted_selectors d)).length := by
  refine ⟨rfl, rfl,
    ⟨.elem "div".data [] none none [.text (List.replicate 150 'a')], rfl, by decide⟩⟩

/-- C1, amended: the cascade advances on *no match at all*, not on "no
qualifying block": once any semantic selector matches an element, the
extractor's result is entirely determined by that element — and if the
element's text (after boilerplate removal) is at or below the 100-character
threshold, the page yields nothing, the largest-text-block and body passes
never being attempted. -/
theorem extract_content_stops_at_first_selector_match (t e : HNode)
    (h : firstSelectorMatch t = some e) :
    extract_content t = processChosen t e ∧
    ((get_text_sep (removeSelAll unwanted_selectors e)).length ≤ 100 →
      extract_content t = none) := by
  have h1 : extract_content t = processChosen t e := by
    rw [extract_content, h]
  refine ⟨h1, fun hle => ?_⟩
  rw [h1]
  simp only [processChosen]
  rw [if_neg (by omega)]

set_option maxRecDepth 8000 in
/-- Witness for C1 (amended), instantiated on `c1_page`. -/
theorem extract_content_stops_at_first_selector_match_witness :
    firstSelectorMatch c1_page = some c1_main ∧ extract_content c1_page = none :=
  ⟨rfl,
   (extract_content_stops_at_first_selector_match c1_page c1_main rfl).2
     (by decide)⟩

/-!
### `NinjaTraderAPIScraper.extract_documentation_content` and the
`save_documentation` gate (ninjatrader_api_scraper.py 89-160, 206-210)

Fetching, the visited guard and the exception path are outside this model:
the function is given the parsed soup of a successfully fetched page.  The
`scraped_at` field does not exist in this scraper's documents.
-/

structure ApiDoc where
  url : Str
  title : Str
  text : Str
  code_examples : List Str
deriving Repr, DecidableEq

def api_selectors : List Selector :=
  [.tagSel "main".data, .roleSel "main".data, .idSel "main-content".data,
   .classSel "main-content".data, .classSel "content".data,
   .classSel "documentation".data, .tagSel "article".data,
   .classSel "doc-content".data, .classSel "api-content".data]

def api_nav_selectors : List Selector :=
  [.tagSel "nav".data, .tagSel "header".data, .tagSel "footer".data,
   .classSel "nav".data, .classSel "navigation".data,
   .classSel "header".data, .classSel "footer".data]

/-- Strategy 1 of the API scraper: first matching selector from
`api_selectors`. -/
def api_firstSelectorMatch (soup : HNode) : Option HNode :=
  api_selectors.foldl
    (fun acc s =>
      match acc with
      | some e => some e
      | none => selectOne s soup) none

def extract_documentation_content (url : Str) (soup : HNode) : Option ApiDoc :=
  let soup := removeSelAll [Selector.tagSel "script".data,
    Selector.tagSel "style".data] soup
  let content :=
    match api_firstSelectorMatch soup with
    | some c => some c
    | none => selectOne (.tagSel "body".data) soup
  match content with
  | none => none
  | some c =>
    let c := removeSelAll api_nav_selectors c
    some { url := url, title := titleText soup, text := get_text_sep c,
           code_examples := (findAllTags ["pre".data, "code".data] c).map
             get_text_nosep }

/-- The per-URL document kept by `save_documentation`:
`if content and len(content['text']) > 100: all_docs.append(content)`. -/
def api_saved_doc (url : Str) (soup : HNode) : Option ApiDoc :=
  match extract_documentation_content url soup with
  | some content => if 100 < content.text.length then some content else none
  | none => none

/-- A page whose body holds exactly `n` characters of text. -/
def c3_page (n : Nat) : HNode :=
  .elem "html".data [] none none
    [.elem "head".data [] none none
      [.elem "title".data [] none none [.text "T".data]],
     .elem "body".data [] none none [.text (List.replicate n 'a')]]

def c3_url : Str := "https://developer.ninjatrader.com/docs/desktop/x".data

set_option maxRecDepth 8000 in
/-- C3, counterexample: the claim says a best-candidate block of exactly
`threshold` (~100) characters produces a Document.  The code's condition is
the strict `len(text) > 100`: a page extracting exactly 100 characters is
discarded. -/
theorem c3_counterexample :
    (∃ d, extract_documentation_content c3_url (c3_page 100) = some d ∧
      d.text.length = 100) ∧
    api_saved_doc c3_url (c3_page 100) = none := by
  refine ⟨⟨{ url := c3_url, title := "T".data, text := List.replicate 100 'a',
             code_examples := [] }, by decide, by decide⟩, by decide⟩

/-- C3, amended: the minimum-content comparison is strict: a page whose
extracted text has exactly 99 or exactly 100 characters produces no
Document, and one with exactly 101 characters produces one. -/
theorem api_threshold_strict (url : Str) (soup : HNode) (d : ApiDoc)
    (h : extract_documentation_content url soup = some d) :
    (d.text.length = 99 → api_saved_doc url soup = none) ∧
    (d.text.length = 100 → api_saved_doc url soup = none) ∧
    (d.text.length = 101 → api_saved_doc url soup = some d) := by
  refine ⟨fun hl => ?_, fun hl => ?_, fun hl => ?_⟩ <;>
    simp only [api_saved_doc, h]
  · rw [if_neg (by omega)]
  · rw [if_neg (by omega)]
  · rw [if_pos (by omega)]

set_option maxRecDepth 8000 in
/-- Witness for C3 (amended): on a 101-character page the document is kept. -/
theorem api_threshold_strict_witness :
    api_saved_doc c3_url (c3_page 101) =
      some { url := c3_url, title := "T".data, text := List.replicate 101 'a',
             code_examples := [] } :=
  (api_threshold_strict c3_url (c3_page 101)
    { url := c3_url, title := "T".data, text := List.replicate 101 'a',
      code_examples := [] } (by decide)).2.2 (by decide)

/-!
### `NinjaTraderSeleniumScraper` (ninjatrader-selenium-scraper.py)

The crawl controller `scrape_site` with its instance state
(`urls_to_visit` local; `visited_urls`, `failed_urls`, `content_data` on the
instance) and the driver's current page.  A fetched page is summarized by the
data the controller consumes: the title, the extracted `content_text` (the
selector-strategy result of lines 120-153), the collected code examples
(lines 155-163) and the page's absolute link targets (`find_documentation_links`
reads `href` attributes of the *currently loaded* DOM; `urljoin` resolution is
folded into the page data).  `fetch url = none` models `driver.get`/extraction
raising, the path that records the URL in `failed_urls`.  The frontier is a
Python `set` popped in unspecified order; it is modelled as a list popped at
the head, with set semantics enforced by the membership guards.
-/

structure SelPage where
  title : Str
  text : Str
  codeExamples : List Str
  links : List Str
deriving Repr, DecidableEq

structure SelWorld where
  base_url : Str
  now : Str
  fetch : Str → Option SelPage

structure SelDoc where
  url : Str
  title : Str
  content : Str
  code_examples : List Str
  scraped_at : Str
deriving Repr, DecidableEq

structure SelState where
  urls_to_visit : List Str
  visited_urls : List Str
  failed_urls : List Str
  content_data : List SelDoc
  currentPage : Option SelPage
deriving Repr, DecidableEq

/-- The instance state created by `__init__`. -/
def initSelState : SelState :=
  { urls_to_visit := [], visited_urls := [], failed_urls := [],
    content_data := [], currentPage := none }

/-- `extract_page_content` (lines 96-181): on a raised exception the URL goes
to `failed_urls` and no document is produced; on success the driver now shows
the page, and a document is returned only when `len(content_text) > 100`. -/
def extract_page_content (w : SelWorld) (s : SelState) (url : Str) :
    SelState × Option SelDoc :=
  match w.fetch url with
  | none => ({ s with failed_urls := url :: s.failed_urls }, none)
  | some page =>
    if 100 < page.text.length then
      ({ s with currentPage := some page },
       some { url := url, title := page.title, content := page.text,
              code_examples := page.codeExamples, scraped_at := w.now })
    else ({ s with currentPage := some page }, none)

/-- The selenium link filter's excluded extensions (lines 205-207): note the
absence of `.dmg` and `.gif`. -/
def sel_excluded_exts : List Str :=
  ([".pdf", ".zip", ".exe", ".png", ".jpg"] : List String).map String.data

/-- Python's substring test `needle in haystack`. -/
def substrCheck (needle : Str) : Str → Bool
  | [] => needle.isPrefixOf []
  | c :: rest => needle.isPrefixOf (c :: rest) || substrCheck needle rest

def sel_link_ok (visited : List Str) (u : Str) : Bool :=
  substrCheck "developer.ninjatrader.com/docs".data u &&
  !(sel_excluded_exts.any (fun e => e.isSuffixOf u)) &&
  !(visited.contains u)

/-- `find_documentation_links` (lines 183-217): reads the links of the DOM
currently loaded in the driver and filters them. -/
def find_documentation_links (currentPage : Option SelPage)
    (visited : List Str) : List Str :=
  match currentPage with
  | none => []
  | some page => (page.links.filter (sel_link_ok visited)).dedup

/-- One iteration of the `while` loop of `scrape_site` (lines 227-246) after
popping `url` with `rest` remaining. -/
def scrape_step (w : SelWorld) (s : SelState) (url : Str) (rest : List Str) :
    SelState :=
  if url ∈ s.visited_urls then { s with urls_to_visit := rest }
  else
    let s1 := { s with urls_to_visit := rest,
                       visited_urls := url :: s.visited_urls }
    let er := extract_page_content w s1 url
    let s2 :=
      match er.2 with
      | some d => { er.1 with content_data := er.1.content_data ++ [d] }
      | none => er.1
    let new_links := find_documentation_links s2.currentPage s2.visited_urls
    { s2 with urls_to_visit := s2.urls_to_visit ++
        new_links.filter (fun l => !(s2.visited_urls.contains l) &&
          !(s2.urls_to_visit.contains l)) }

/-- The `while urls_to_visit and len(self.visited_urls) < max_pages` loop,
with explicit fuel (each run only ever executes finitely many iterations). -/
def scrape_loop (w : SelWorld) (max_pages : Nat) : Nat → SelState → SelState
  | 0, s => s
  | fuel + 1, s =>
    match s.urls_to_visit with
    | [] => s
    | url :: rest =>
      if s.visited_urls.length < max_pages then
        scrape_loop w max_pages fuel (scrape_step w s url rest)
      else s

/-- `scrape_site` (lines 219-254): re-initializes only the local frontier
(`urls_to_visit = {self.base_url}`) and the freshly started driver; the
instance's `visited_urls`, `failed_urls` and `content_data` are *not* reset. -/
def scrape_site (w : SelWorld) (max_pages fuel : Nat) (s : SelState) : SelState :=
  scrape_loop w max_pages fuel
    { s with urls_to_visit := [w.base_url], currentPage := none }

/-- Per-component effect of one loop iteration. -/
theorem scrape_step_components (w : SelWorld) (s : SelState) (url : Str)
    (rest : List Str) :
    (scrape_step w s url rest).visited_urls =
      (if url ∈ s.visited_urls then s.visited_urls else url :: s.visited_urls) ∧
    (scrape_step w s url rest).failed_urls =
      (if url ∈ s.visited_urls then s.failed_urls
       else
         match w.fetch url with
         | none => url :: s.failed_urls
         | some _ => s.failed_urls) ∧
    (∃ t, (scrape_step w s url rest).content_data = s.content_data ++ t) := by
  by_cases hv : url ∈ s.visited_urls
  · simp only [scrape_step, if_pos hv]
    exact ⟨trivial, trivial, ⟨[], by simp⟩⟩
  · simp only [scrape_step, if_neg hv]
    cases hf : w.fetch url with
    | none =>
      simp only [extract_page_content, hf]
      exact ⟨trivial, trivial, ⟨[], by simp⟩⟩
    | some page =>
      simp only [extract_page_content, hf]
      by_cases hlen : 100 < page.text.length
      · rw [if_pos hlen]
        exact ⟨rfl, rfl,
          ⟨[{ url := url, title := page.title, content := page.text,
              code_examples := page.codeExamples, scraped_at := w.now }], rfl⟩⟩
      · rw [if_neg hlen]
        exact ⟨rfl, rfl, ⟨[], by simp⟩⟩

/-- Nodup/cap invariant of the loop. -/
theorem scrape_loop_no_dup (w : SelWorld) (mp : Nat) :
    ∀ fuel s, s.visited_urls.Nodup → s.visited_urls.length ≤ mp →
      (scrape_loop w mp fuel s).visited_urls.Nodup ∧
      (scrape_loop w mp fuel s).visited_urls.length ≤ mp := by
  intro fuel
  induction fuel with
  | zero => exact fun s h1 h2 => ⟨h1, h2⟩
  | succ n ih =>
    intro s h1 h2
    cases hu : s.urls_to_visit with
    | nil =>
      rw [scrape_loop]
      simp only [hu]
      exact ⟨h1, h2⟩
    | cons url rest =>
      rw [scrape_loop]
      simp only [hu]
      by_cases hlen : s.visited_urls.length < mp
      · rw [if_pos hlen]
        obtain ⟨hvis, -, -⟩ := scrape_step_components w s url rest
        apply ih
        · rw [hvis]
          by_cases hm : url ∈ s.visited_urls
          · rwa [if_pos hm]
          · rw [if_neg hm]; exact List.nodup_cons.mpr ⟨hm, h1⟩
        · rw [hvis]
          by_cases hm : url ∈ s.visited_urls
          · rw [if_pos hm]; exact h2
          · rw [if_neg hm]; simpa using hlen
      · rw [if_neg hlen]; exact ⟨h1, h2⟩

/-- C4: for every completed crawl run with page cap `max_pages`, the visited
set holds no URL more than once (every URL is dequeued and processed at most
once) and its size never exceeds `max_pages`. -/
theorem scrape_site_no_duplicate_visits (w : SelWorld) (mp fuel : Nat)
    (s : SelState) (h1 : s.visited_urls.Nodup)
    (h2 : s.visited_urls.length ≤ mp) :
    (scrape_site w mp fuel s).visited_urls.Nodup ∧
    (scrape_site w mp fuel s).visited_urls.length ≤ mp :=
  scrape_loop_no_dup w mp fuel _ h1 h2

/-- C5: when the fetch of a popped, not-yet-visited URL raises, the iteration
records the URL in `failed_urls`, produces no document, leaves the driver (and
hence the link source) on the previously loaded page — so the failed URL's
own links are never read — and hands control back to the loop with the
remaining frontier: the run is not aborted. -/
theorem scrape_step_fetch_failure (w : SelWorld) (s : SelState) (url : Str)
    (rest : List Str) (hf : w.fetch url = none) (hv : url ∉ s.visited_urls) :
    scrape_step w s url rest =
      { urls_to_visit := rest ++
          (find_documentation_links s.currentPage (url :: s.visited_urls)).filter
            (fun l => !((url :: s.visited_urls).contains l) && !(rest.contains l)),
        visited_urls := url :: s.visited_urls,
        failed_urls := url :: s.failed_urls,
        content_data := s.content_data,
        currentPage := s.currentPage } := by
  simp only [scrape_step, if_neg hv, extract_page_content, hf]

/-- A small concrete world for witnesses and counterexamples: the seed page
qualifies (101 characters) and links to `/docs/b` (thin content) and to
`/docs/a.gif` (an extension the selenium filter does not exclude). -/
def pageA : SelPage :=
  { title := "A".data, text := List.replicate 101 'a', codeExamples := [],
    links := ["https://developer.ninjatrader.com/docs/b".data,
              "https://developer.ninjatrader.com/docs/a.gif".data] }

def pageB : SelPage :=
  { title := "B".data, text := "short".data, codeExamples := [], links := [] }

def wTest : SelWorld :=
  { base_url := "https://developer.ninjatrader.com/docs/desktop".data,
    now := "2026-01-01 00:00:00".data,
    fetch := fun u =>
      if u = "https://developer.ninjatrader.com/docs/desktop".data then some pageA
      else if u = "https://developer.ninjatrader.com/docs/b".data then some pageB
      else if u = "https://developer.ninjatrader.com/docs/a.gif".data then some pageB
      else none }

/-- Witness for C5: a URL outside the test world's pages. -/
theorem scrape_step_fetch_failure_witness :
    (wTest.fetch "https://x".data = none ∧ "https://x".data ∉ ([] : List Str)) ∧
    scrape_step wTest initSelState "https://x".data [] =
      { urls_to_visit := [], visited_urls := ["https://x".data],
        failed_urls := ["https://x".data], content_data := [],
        currentPage := none } :=
  ⟨⟨rfl, by decide⟩,
   scrape_step_fetch_failure wTest initSelState "https://x".data [] rfl
     (by decide)⟩

/-- failed ⊆ visited is preserved by the loop. -/
theorem scrape_loop_failed_subset (w : SelWorld) (mp : Nat) :
    ∀ fuel s, (∀ u, u ∈ s.failed_urls → u ∈ s.visited_urls) →
      ∀ u, u ∈ (scrape_loop w mp fuel s).failed_urls →
        u ∈ (scrape_loop w mp fuel s).visited_urls := by
  intro fuel
  induction fuel with
  | zero => exact fun s h => h
  | succ n ih =>
    intro s h
    cases hu : s.urls_to_visit with
    | nil =>
      rw [scrape_loop]
      simp only [hu]
      exact h
    | cons url rest =>
      rw [scrape_loop]
      simp only [hu]
      by_cases hlen : s.visited_urls.length < mp
      · rw [if_pos hlen]
        obtain ⟨hvis, hfail, -⟩ := scrape_step_components w s url rest
        apply ih
        intro u hm
        rw [hfail] at hm
        rw [hvis]
        by_cases hmv : url ∈ s.visited_urls
        · rw [if_pos hmv] at hm ⊢
          exact h u hm
        · rw [if_neg hmv] at hm ⊢
          cases hwf : w.fetch url with
          | none =>
            rw [hwf] at hm
            rcases List.mem_cons.mp hm with rfl | hm
            · exact List.mem_cons_self _ _
            · exact List.mem_cons_of_mem _ (h u hm)
          | some page =>
            rw [hwf] at hm
            exact List.mem_cons_of_mem _ (h u hm)
      · rw [if_neg hlen]; exact h

/-- C10: every URL recorded as failed has also been recorded as visited:
`failed_urls` is only ever extended inside `extract_page_content`, which the
controller calls only after adding the URL to `visited_urls`, so
`failed_urls ⊆ visited_urls` holds at every point of every run. -/
theorem scrape_site_failed_subset_visited (w : SelWorld) (mp fuel : Nat)
    (s : SelState) (h : ∀ u, u ∈ s.failed_urls → u ∈ s.visited_urls) :
    ∀ u, u ∈ (scrape_site w mp fuel s).failed_urls →
      u ∈ (scrape_site w mp fuel s).visited_urls :=
  scrape_loop_failed_subset w mp fuel _ h

/-- A world whose seed page links to a URL whose fetch fails. -/
def pageF : SelPage :=
  { title := "F".data, text := List.replicate 101 'a', codeExamples := [],
    links := ["https://developer.ninjatrader.com/docs/broken".data] }

def wFail : SelWorld :=
  { base_url := "https://developer.ninjatrader.com/docs/desktop".data,
    now := "2026-01-01 00:00:00".data,
    fetch := fun u =>
      if u = "https://developer.ninjatrader.com/docs/desktop".data then some pageF
      else none }

set_option maxRecDepth 8000 in
/-- Witness for C10: a run in which `/docs/broken` actually fails. -/
theorem scrape_site_failed_subset_visited_witness :
    "https://developer.ninjatrader.com/docs/broken".data ∈
      (scrape_site wFail 10 5 initSelState).failed_urls ∧
    "https://developer.ninjatrader.com/docs/broken".data ∈
      (scrape_site wFail 10 5 initSelState).visited_urls :=
  ⟨by decide,
   scrape_site_failed_subset_visited wFail 10 5 initSelState
     (fun u hu => absurd hu (by simp [initSelState])) _ (by decide)⟩

set_option maxRecDepth 8000 in
/-- Witness for C4: a run capped at 2 pages over a 3-page site. -/
theorem scrape_site_no_duplicate_visits_witness :
    initSelState.visited_urls.Nodup ∧ initSelState.visited_urls.length ≤ 2 ∧
    (scrape_site wTest 2 10 initSelState).visited_urls.Nodup ∧
    (scrape_site wTest 2 10 initSelState).visited_urls.length ≤ 2 :=
  ⟨by decide, by decide,
   (scrape_site_no_duplicate_visits wTest 2 10 initSelState (by decide)
     (by decide)).1,
   (scrape_site_no_duplicate_visits wTest 2 10 initSelState (by decide)
     (by decide)).2⟩

set_option maxRecDepth 8000 in
/-- C6, counterexample: the claim says links ending in any of
`.pdf, .zip, .exe, .dmg, .png, .jpg, .gif` are rejected by the link filter
and never appear in Visited.  The selenium filter excludes only
`.pdf, .zip, .exe, .png, .jpg`: a discovered `.gif` link passes the filter,
is enqueued, and is visited. -/
theorem c6_counterexample :
    sel_link_ok [] "https://developer.ninjatrader.com/docs/a.gif".data = true ∧
    "https://developer.ninjatrader.com/docs/a.gif".data ∈
      (scrape_site wTest 10 6 initSelState).visited_urls := by
  exact ⟨by decide, by decide⟩

/-- Monotonicity of the loop: the instance's visited/failed/content data only
ever grow. -/
theorem scrape_loop_extends (w : SelWorld) (mp : Nat) :
    ∀ fuel s,
      (∀ u, u ∈ s.visited_urls → u ∈ (scrape_loop w mp fuel s).visited_urls) ∧
      (∀ u, u ∈ s.failed_urls → u ∈ (scrape_loop w mp fuel s).failed_urls) ∧
      (∃ t, (scrape_loop w mp fuel s).content_data = s.content_data ++ t) := by
  intro fuel
  induction fuel with
  | zero => exact fun s => ⟨fun u h => h, fun u h => h, ⟨[], by simp [scrape_loop]⟩⟩
  | succ n ih =>
    intro s
    cases hu : s.urls_to_visit with
    | nil =>
      rw [scrape_loop]
      simp only [hu]
      exact ⟨fun u h => h, fun u h => h, ⟨[], by simp⟩⟩
    | cons url rest =>
      rw [scrape_loop]
      simp only [hu]
      by_cases hlen : s.visited_urls.length < mp
      · rw [if_pos hlen]
        obtain ⟨hvis, hfail, t0, hct⟩ := scrape_step_components w s url rest
        obtain ⟨ih1, ih2, t1, ih3⟩ := ih (scrape_step w s url rest)
        refine ⟨?_, ?_, ?_⟩
        · intro u hm
          apply ih1
          rw [hvis]
          by_cases hmv : url ∈ s.visited_urls
          · rwa [if_pos hmv]
          · rw [if_neg hmv]; exact List.mem_cons_of_mem _ hm
        · intro u hm
          apply ih2
          rw [hfail]
          by_cases hmv : url ∈ s.visited_urls
          · rwa [if_pos hmv]
          · rw [if_neg hmv]
            cases hwf : w.fetch url with
            | none => exact List.mem_cons_of_mem _ hm
            | some page => exact hm
        · exact ⟨t0 ++ t1, by rw [ih3, hct, List.append_assoc]⟩
      · rw [if_neg hlen]
        exact ⟨fun u h => h, fun u h => h, ⟨[], by simp⟩⟩

/-- C8, amended: an invocation of `scrape_site` resets only the local
frontier (to `{base_url}`) and the freshly started driver; the instance's
`visited_urls`, `failed_urls` and `content_data` persist from previous
invocations on the same instance, so a crawl begins from a fresh state only
on a freshly constructed instance. -/
theorem scrape_site_persists_instance_state (w : SelWorld) (mp fuel : Nat)
    (s : SelState) :
    scrape_site w mp fuel s =
      scrape_loop w mp fuel
        { s with urls_to_visit := [w.base_url], currentPage := none } ∧
    (∀ u, u ∈ s.visited_urls → u ∈ (scrape_site w mp fuel s).visited_urls) ∧
    (∀ u, u ∈ s.failed_urls → u ∈ (scrape_site w mp fuel s).failed_urls) ∧
    (∃ t, (scrape_site w mp fuel s).content_data = s.content_data ++ t) := by
  obtain ⟨h1, h2, h3⟩ := scrape_loop_extends w mp fuel
    { s with urls_to_visit := [w.base_url], currentPage := none }
  exact ⟨rfl, h1, h2, h3⟩

set_option maxRecDepth 8000 in
/-- C8, counterexample: the claim says every `crawl` invocation begins with
an empty Visited set, making the result independent of leftover instance
state.  Running the same configuration twice on one instance refutes this:
the fresh run extracts one document, while the second run — starting with
the first run's `visited_urls`, which is not reset — extracts nothing new. -/
theorem c8_counterexample :
    (scrape_site wTest 10 6 initSelState).content_data.length = 1 ∧
    (scrape_site wTest 10 6 (scrape_site wTest 10 6 initSelState)).content_data =
      (scrape_site wTest 10 6 initSelState).content_data ∧
    (scrape_site wTest 10 6 initSelState).visited_urls ≠ [] := by
  exact ⟨by decide, by decide, by decide⟩

/-!
### Document serialization (C7)

Python dicts preserve insertion order and `json.dump` writes keys in that
order, so the key order of each JSON record is the order of the dict literal
that built the document: selenium (lines 167-173) uses
`url, title, content, code_examples, scraped_at`; the api scraper (lines
150-155) uses `url, title, text, code_examples` with no `scraped_at`.
-/

inductive JVal where
  | str (v : Str)
  | arr (vs : List Str)
deriving Repr, DecidableEq

/-- The selenium document's JSON record, as an ordered key/value list. -/
def selDocPairs (d : SelDoc) : List (Str × JVal) :=
  [("url".data, .str d.url), ("title".data, .str d.title),
   ("content".data, .str d.content),
   ("code_examples".data, .arr d.code_examples),
   ("scraped_at".data, .str d.scraped_at)]

/-- `save_results`' JSON artifact (lines 258-261):
`json.dump(self.content_data, ...)`, the full document list in order. -/
def save_results_json (docs : List SelDoc) : List (List (Str × JVal)) :=
  docs.map selDocPairs

/-- The api scraper document's JSON record. -/
def apiDocPairs (d : ApiDoc) : List (Str × JVal) :=
  [("url".data, .str d.url), ("title".data, .str d.title),
   ("text".data, .str d.text), ("code_examples".data, .arr d.code_examples)]

/-- `save_documentation`'s JSON artifact (lines 215-217). -/
def save_documentation_json (docs : List ApiDoc) : List (List (Str × JVal)) :=
  docs.map apiDocPairs

def sampleSelDoc : SelDoc :=
  { url := "u".data, title := "t".data, content := "c".data,
    code_examples := [], scraped_at := "s".data }

def sampleApiDoc : ApiDoc :=
  { url := "u".data, title := "t".data, text := "x".data, code_examples := [] }

/-- C7, counterexample: the claim says each record carries exactly the keys
`url, title, text, code_examples, scraped_at` in that order.  The selenium
records use the key `content`, not `text`; the api records lack
`scraped_at`. -/
theorem c7_counterexample :
    (selDocPairs sampleSelDoc).map Prod.fst ≠
      (["url", "title", "text", "code_examples", "scraped_at"] :
        List String).map String.data ∧
    (apiDocPairs sampleApiDoc).map Prod.fst ≠
      (["url", "title", "text", "code_examples", "scraped_at"] :
        List String).map String.data := by
  exact ⟨by decide, by decide⟩

/-- C7, amended: the JSON artifacts are the full ordered document lists, one
record per document in document order; each selenium record has exactly the
keys `url, title, content, code_examples, scraped_at` in that stable order,
and each api record exactly `url, title, text, code_examples`. -/
theorem json_output_key_order (docs : List SelDoc) (adocs : List ApiDoc) :
    save_results_json docs = docs.map selDocPairs ∧
    (save_results_json docs).map (List.map Prod.fst) =
      docs.map (fun _ => (["url", "title", "content", "code_examples",
        "scraped_at"] : List String).map String.data) ∧
    save_documentation_json adocs = adocs.map apiDocPairs ∧
    (save_documentation_json adocs).map (List.map Prod.fst) =
      adocs.map (fun _ => (["url", "title", "text", "code_examples"] :
        List String).map String.data) := by
  refine ⟨rfl, ?_, rfl, ?_⟩
  · rw [save_results_json, List.map_map]
    exact List.map_congr_left fun d _ => rfl
  · rw [save_documentation_json, List.map_map]
    exact List.map_congr_left fun d _ => rfl

/-!
### `NinjaTraderDocsScraper.scrape_recursive` and its link filter
(ninjatrader_docs_scraper.py 138-168, 199-252)

A fetched page is summarized by its `href` targets; `urljoin` is carried as
an opaque resolution function in the world (the link filter and the crawl
state are insensitive to how resolution produces the absolute URL, because
`clean_url` and the filter are applied to its output).  The content
extraction and file append of lines 220-227 do not touch the crawl state
(visited set, link set) and are omitted.  The depth bookkeeping
(`current_depth > max_depth` returns; recursive calls use
`current_depth + 1`) is carried as the explicit budget
`fuel = max_depth + 1 - current_depth`.
-/

structure DocsPage where
  hrefs : List Str
deriving Repr

structure DocsWorld where
  base : Str
  join : Str → Str → Str
  fetch : Str → Option DocsPage

/-- The docs scraper's excluded extensions (line 163): all seven. -/
def docs_excluded_exts : List Str :=
  ([".pdf", ".zip", ".exe", ".dmg", ".png", ".jpg", ".gif"] :
    List String).map String.data

def docs_domain : Str := "https://developer.ninjatrader.com".data

/-- `find_documentation_links`: resolve each href, clean it, keep in-domain
`/docs/` links without an excluded extension that are not yet visited. -/
def docs_find_links (w : DocsWorld) (page : DocsPage) (currentUrl : Str)
    (visited : List Str) : List Str :=
  ((page.hrefs.map (fun href => clean_url (w.join currentUrl href))).filter
    (fun u => docs_domain.isPrefixOf u && substrCheck "/docs/".data u &&
      !(docs_excluded_exts.any (fun e => e.isSuffixOf u)) &&
      !(visited.contains u))).dedup

/-- String comparison for `sorted(links)`. -/
def strLe : Str → Str → Bool
  | [], _ => true
  | _ :: _, [] => false
  | a :: as, b :: bs => if a = b then strLe as bs else decide (a < b)

def insertSorted (x : Str) : List Str → List Str
  | [] => [x]
  | y :: ys => if strLe x y then x :: y :: ys else y :: insertSorted x ys

def sortStrs (l : List Str) : List Str := l.foldr insertSorted []

theorem mem_insertSorted {a x : Str} {l : List Str} :
    a ∈ insertSorted x l ↔ a = x ∨ a ∈ l := by
  induction l with
  | nil => simp [insertSorted]
  | cons y ys ih =>
    rw [insertSorted]
    by_cases h : strLe x y
    · rw [if_pos h]; simp
    · rw [if_neg h]
      simp only [List.mem_cons, ih]
      tauto

theorem mem_sortStrs {a : Str} {l : List Str} : a ∈ sortStrs l ↔ a ∈ l := by
  induction l with
  | nil => simp [sortStrs]
  | cons x xs ih =>
    rw [sortStrs, List.foldr_cons]
    rw [show xs.foldr insertSorted [] = sortStrs xs from rfl]
    rw [mem_insertSorted, ih]
    simp

/-- `scrape_recursive`: clean the URL, skip if visited, mark visited, fetch
(returning on failure), then recurse over the page's sorted links. -/
def scrapeRec (w : DocsWorld) : Nat → Str → List Str → List Str
  | 0, _, visited => visited
  | fuel + 1, url, visited =>
    if clean_url url ∈ visited then visited
    else
      match w.fetch (clean_url url) with
      | none => clean_url url :: visited
      | some page =>
        (sortStrs (docs_find_links w page (clean_url url)
            (clean_url url :: visited))).foldl
          (fun acc link => scrapeRec w fuel link acc)
          (clean_url url :: visited)

/-- `scrape_all`: start the recursion at the base URL with depth 0 against
the depth cap. -/
def docs_scrape_all (w : DocsWorld) (max_depth : Nat) : List Str :=
  scrapeRec w (max_depth + 1) w.base []

/-- `u` ends with none of the seven excluded extensions. -/
def noExcludedExt (u : Str) : Prop :=
  ∀ e ∈ docs_excluded_exts, e.isSuffixOf u = false

instance (u : Str) : Decidable (noExcludedExt u) :=
  inferInstanceAs (Decidable (∀ e ∈ docs_excluded_exts, e.isSuffixOf u = false))

theorem isPrefixOf_cons {a : Char} {as l : Str}
    (h : (a :: as).isPrefixOf l = true) : ∃ t, l = a :: t := by
  cases l with
  | nil => simp [List.isPrefixOf] at h
  | cons b bs =>
    rw [List.isPrefixOf, Bool.and_eq_true, beq_iff_eq] at h
    exact ⟨bs, by rw [h.1]⟩

/-- A URL produced by `clean_url` that carries the docs domain prefix is a
fixed point of `clean_url`. -/
theorem clean_url_fixed_of_domain_prefix {x : Str}
    (h : docs_domain.isPrefixOf (clean_url x) = true) :
    clean_url (clean_url x) = clean_url x := by
  apply clean_url_idem
  intro hnil
  have hcu : clean_url x = ':' :: '/' :: '/' ::
      ((urlparse x).netloc ++ (urlparse x).path) := by
    rw [clean_url_eval, hnil]; rfl
  rw [hcu] at h
  have hd : docs_domain = 'h' :: "ttps://developer.ninjatrader.com".data := rfl
  rw [hd] at h
  obtain ⟨t, ht⟩ := isPrefixOf_cons h
  exact absurd (List.cons_eq_cons.mp ht).1 (by decide)

/-- Every link returned by the docs link filter has no excluded extension
and is a `clean_url` fixed point. -/
theorem docs_find_links_spec (w : DocsWorld) (page : DocsPage) (cu : Str)
    (visited : List Str) {l : Str}
    (hl : l ∈ docs_find_links w page cu visited) :
    noExcludedExt l ∧ clean_url l = l := by
  rw [docs_find_links, List.mem_dedup] at hl
  have hfil := List.of_mem_filter hl
  have hmem := List.mem_of_mem_filter hl
  obtain ⟨href, -, rfl⟩ := List.mem_map.mp hmem
  simp only [Bool.and_eq_true] at hfil
  obtain ⟨⟨⟨hpre, -⟩, hexc⟩, -⟩ := hfil
  refine ⟨?_, clean_url_fixed_of_domain_prefix hpre⟩
  intro e he
  rw [Bool.not_eq_true'] at hexc
  have := List.any_eq_false.mp hexc e he
  rwa [Bool.not_eq_true] at this

/-- C6, amended: in the requests-based docs scraper every discovered link
ending in one of the seven excluded extensions
(`.pdf, .zip, .exe, .dmg, .png, .jpg, .gif`) is rejected by
`find_documentation_links`, so no URL with an excluded extension is ever
visited (given a seed without one); the selenium variant's filter, by
contrast, omits `.dmg` and `.gif` (see the counterexample). -/
theorem docs_crawl_never_visits_excluded (w : DocsWorld) (fuel : Nat)
    (url : Str) (visited : List Str)
    (h1 : ∀ v ∈ visited, noExcludedExt v)
    (h2 : noExcludedExt (clean_url url)) :
    ∀ v ∈ scrapeRec w fuel url visited, noExcludedExt v := by
  induction fuel generalizing url visited with
  | zero =>
    intro v hm
    rw [scrapeRec] at hm
    exact h1 v hm
  | succ n ih =>
    intro v hm
    rw [scrapeRec] at hm
    by_cases hin : clean_url url ∈ visited
    · rw [if_pos hin] at hm; exact h1 v hm
    · rw [if_neg hin] at hm
      have hv' : ∀ x ∈ clean_url url :: visited, noExcludedExt x := by
        intro x hx
        rcases List.mem_cons.mp hx with rfl | hx
        · exact h2
        · exact h1 x hx
      cases hf : w.fetch (clean_url url) with
      | none =>
        simp only [hf] at hm
        exact hv' v hm
      | some page =>
        simp only [hf] at hm
        have haux : ∀ (links acc : List Str),
            (∀ x ∈ acc, noExcludedExt x) →
            (∀ l ∈ links, noExcludedExt l ∧ clean_url l = l) →
            ∀ x ∈ links.foldl (fun acc link => scrapeRec w n link acc) acc,
              noExcludedExt x := by
          intro links
          induction links with
          | nil =>
            intro acc hacc _ x hx
            rw [List.foldl_nil] at hx
            exact hacc x hx
          | cons l ls ihl =>
            intro acc hacc hlinks x hx
            rw [List.foldl_cons] at hx
            refine ihl _ ?_ (fun l' hl' => hlinks l' (List.mem_cons_of_mem _ hl')) x hx
            intro y hy
            obtain ⟨hne, hcl⟩ := hlinks l (List.mem_cons_self _ _)
            exact ih l acc hacc (by rwa [hcl]) y hy
        refine haux _ _ hv' ?_ v hm
        intro l hl
        rw [mem_sortStrs] at hl
        exact docs_find_links_spec w page _ _ hl

/-- A concrete docs world whose seed page links to `/docs/a` and to
`/docs/a.pdf` (hrefs already absolute, so resolution is the identity). -/
def wDocs : DocsWorld :=
  { base := "https://developer.ninjatrader.com/docs/desktop".data,
    join := fun _ href => href,
    fetch := fun u =>
      if u = "https://developer.ninjatrader.com/docs/desktop".data then
        some { hrefs := ["https://developer.ninjatrader.com/docs/a".data,
                         "https://developer.ninjatrader.com/docs/a.pdf".data] }
      else if u = "https://developer.ninjatrader.com/docs/a".data then
        some { hrefs := [] }
      else none }

set_option maxRecDepth 8000 in
/-- Witness for C6 (amended): the seed is visited and has no excluded
extension; the `.pdf` link is dropped by the filter. -/
theorem docs_crawl_never_visits_excluded_witness :
    "https://developer.ninjatrader.com/docs/desktop".data ∈
      scrapeRec wDocs 3 "https://developer.ninjatrader.com/docs/desktop".data [] ∧
    noExcludedExt "https://developer.ninjatrader.com/docs/desktop".data ∧
    "https://developer.ninjatrader.com/docs/a.pdf".data ∉
      scrapeRec wDocs 3 "https://developer.ninjatrader.com/docs/desktop".data [] :=
  ⟨by decide,
   docs_crawl_never_visits_excluded wDocs 3
     "https://developer.ninjatrader.com/docs/desktop".data []
     (by simp) (by decide)
     "https://developer.ninjatrader.com/docs/desktop".data (by decide),
   by decide⟩
